import Mathlib

/-! # Cartesian / spherical coordinate conversion (`polar.h`)

A shallow embedding of `Samples/5_Domain_Specific/simpleGL/polar.h` and the
properties of its two functions `cartesianToPolarPoint` and
`polarToCartesianPoint`.

The embedding is generic in the scalar type and in the scalar functions the
header calls from GLM (`glm::sqrt`, `glm::atan`, `glm::sin`, `glm::cos`,
`glm::pi`): GLM is an external library and is passed in as a record.  The
theorems instantiate the scalars with the real numbers and the record with
the real square root, arctangent, sine, cosine and `π`.

Every division whose denominator is a run-time value goes through `divide`,
which fails on a zero denominator; divisions by the literal `2` are plain.
-/

namespace Polar

/-! ## Data model -/

/-- Three scalars, as `glm::vec3`.  A Cartesian point is `(x, y, z)`; a polar
point is stored in the same type as `(r, theta, phi)`, that is `r` in `x`
(index 0), `theta` in `y` (index 1) and `phi` in `z` (index 2). -/
structure Vec3 (α : Type) where
  x : α
  y : α
  z : α
  deriving DecidableEq, Repr

/-- The scalar functions of GLM used by `polar.h`. -/
structure Glm (α : Type) where
  sqrt : α → α
  atan : α → α
  sin : α → α
  cos : α → α
  pi : α

/-- GLM over the real numbers. -/
noncomputable def realGlm : Glm ℝ where
  sqrt := Real.sqrt
  atan := Real.arctan
  sin := Real.sin
  cos := Real.cos
  pi := Real.pi

section Embedding

variable {α : Type} [LinearOrderedField α]

/-- The clamp threshold, `#define CLAMP_TO_ZERO 0.001` (polar.h line 3). -/
def CLAMP_TO_ZERO : α := 1 / 1000

/-- Division by a run-time denominator: `none` when the denominator is zero. -/
def divide (a b : α) : Option α :=
  if b = 0 then none else some (a / b)

/-- The leaves of the `theta` if-chain of `cartesianToPolarPoint`
(polar.h lines 17-39), in source order. -/
inductive ThetaBranch
  /-- line 18: `abs(z) <= CLAMP_TO_ZERO` -/
  | clampZ
  /-- line 22: on the z-axis, `z > 0` -/
  | axisPos
  /-- line 25: on the z-axis, `z < 0` -/
  | axisNeg
  /-- line 28: on the z-axis, the inner `else` -/
  | axisElse
  /-- line 32: `z > 0` -/
  | upper
  /-- line 35: `z < 0` -/
  | lower
  /-- line 38: the final `else` -/
  | thetaElse
  deriving DecidableEq, Repr

/-- The leaves of the `phi` if-chain of `cartesianToPolarPoint`
(polar.h lines 41-77), in source order. -/
inductive PhiBranch
  /-- line 43: `x == 0`, `y > 0` -/
  | xZeroYPos
  /-- line 46: `x == 0`, `y < 0` -/
  | xZeroYNeg
  /-- line 49: `x == 0`, the inner `else` -/
  | xZeroElse
  /-- line 54: `y == 0`, `x > 0` -/
  | yZeroXPos
  /-- line 57: `y == 0`, `x < 0` -/
  | yZeroXNeg
  /-- line 60: `y == 0`, the inner `else` -/
  | yZeroElse
  /-- line 64: `y > 0 && x > 0` -/
  | quadrant1
  /-- line 67: `y > 0 && x < 0` -/
  | quadrant2
  /-- line 70: `y < 0 && x < 0` -/
  | quadrant3
  /-- line 73: `y < 0 && x > 0` -/
  | quadrant4
  /-- line 76: the final `else` -/
  | phiElse
  deriving DecidableEq, Repr

/-- The `theta` computation of `cartesianToPolarPoint` (polar.h lines 17-39):
the leaf that is taken, and the value it assigns to `theta` (`none` when a
division by zero is evaluated). -/
def cartesianToPolarTheta (G : Glm α) (cartesian : Vec3 α) : ThetaBranch × Option α :=
  if |cartesian.z| ≤ CLAMP_TO_ZERO then
    (.clampZ, some (G.pi / 2))
  else if |cartesian.x| ≤ CLAMP_TO_ZERO ∧ |cartesian.y| ≤ CLAMP_TO_ZERO then
    if cartesian.z > 0 then
      (.axisPos, some 0)
    else if cartesian.z < 0 then
      (.axisNeg, some G.pi)
    else
      (.axisElse, some 0)
  else if cartesian.z > 0 then
    (.upper,
      (divide (G.sqrt (cartesian.x * cartesian.x + cartesian.y * cartesian.y)) cartesian.z).map
        fun q => G.atan q)
  else if cartesian.z < 0 then
    (.lower,
      (divide |cartesian.z| (G.sqrt (cartesian.x * cartesian.x + cartesian.y * cartesian.y))).map
        fun q => G.pi / 2 + G.atan q)
  else
    (.thetaElse, some 0)

/-- The `phi` computation of `cartesianToPolarPoint` (polar.h lines 41-77):
the leaf that is taken, and the value it assigns to `phi` (`none` when a
division by zero is evaluated). -/
def cartesianToPolarPhi (G : Glm α) (cartesian : Vec3 α) : PhiBranch × Option α :=
  if cartesian.x = 0 then
    if cartesian.y > 0 then
      (.xZeroYPos, some (G.pi / 2))
    else if cartesian.y < 0 then
      (.xZeroYNeg, some (G.pi * 3 / 2))
    else
      (.xZeroElse, some 0)
  else if cartesian.y = 0 then
    if cartesian.x > 0 then
      (.yZeroXPos, some 0)
    else if cartesian.x < 0 then
      (.yZeroXNeg, some G.pi)
    else
      (.yZeroElse, some 0)
  else if cartesian.y > 0 ∧ cartesian.x > 0 then
    (.quadrant1, (divide cartesian.y cartesian.x).map fun q => G.atan q)
  else if cartesian.y > 0 ∧ cartesian.x < 0 then
    (.quadrant2, (divide cartesian.y |cartesian.x|).map fun q => G.pi - G.atan q)
  else if cartesian.y < 0 ∧ cartesian.x < 0 then
    (.quadrant3, (divide cartesian.y cartesian.x).map fun q => G.pi + G.atan q)
  else if cartesian.y < 0 ∧ cartesian.x > 0 then
    (.quadrant4, (divide |cartesian.y| cartesian.x).map fun q => 2 * G.pi - G.atan q)
  else
    (.phiElse, some 0)

/-- `glm::vec3 cartesianToPolarPoint(glm::vec3 cartesian)` (polar.h lines 5-85).
The result is `(r, theta, phi)`; it is `none` exactly when one of the
divisions of the two if-chains has a zero denominator. -/
def cartesianToPolarPoint (G : Glm α) (cartesian : Vec3 α) : Option (Vec3 α) :=
  let r := G.sqrt (cartesian.x * cartesian.x + cartesian.y * cartesian.y
    + cartesian.z * cartesian.z)
  match (cartesianToPolarTheta G cartesian).2, (cartesianToPolarPhi G cartesian).2 with
  | some theta, some phi => some ⟨r, theta, phi⟩
  | _, _ => none

/-- `glm::vec3 polarToCartesianPoint(glm::vec3 polar)` (polar.h lines 87-105),
with `polar = (r, theta, phi)`. -/
def polarToCartesianPoint (G : Glm α) (polar : Vec3 α) : Vec3 α :=
  let r := polar.x
  let theta := polar.y
  let phi := polar.z
  ⟨r * G.sin theta * G.cos phi, r * G.sin theta * G.sin phi, r * G.cos theta⟩

end Embedding

/-! ## Reference definitions for the refinement claims -/

/-- The two-argument arctangent `atan2(y, x)`: the angle in `(-π, π]` of the
point `(x, y)` of the plane, that is the argument of the complex number
`x + i y`, with `atan2(0, 0) = 0`. -/
noncomputable def atan2 (y x : ℝ) : ℝ :=
  Complex.arg ⟨x, y⟩

/-- The angle `atan2(y, x)` normalised into `[0, 2π)`: `atan2(y, x)` itself
when it is non-negative, and `atan2(y, x) + 2π` otherwise. -/
noncomputable def atan2Normalized (y x : ℝ) : ℝ :=
  if 0 ≤ atan2 y x then atan2 y x else atan2 y x + 2 * Real.pi

/-! ## The scalar record over the reals -/

@[simp] theorem realGlm_sqrt : realGlm.sqrt = Real.sqrt := rfl
@[simp] theorem realGlm_atan : realGlm.atan = Real.arctan := rfl
@[simp] theorem realGlm_sin : realGlm.sin = Real.sin := rfl
@[simp] theorem realGlm_cos : realGlm.cos = Real.cos := rfl
@[simp] theorem realGlm_pi : realGlm.pi = Real.pi := rfl

/-! ## Which leaf of the `theta` chain is taken, and its value -/

theorem clamp_eq : (CLAMP_TO_ZERO : ℝ) = 1 / 1000 := rfl

theorem clamp_pos : (0 : ℝ) < CLAMP_TO_ZERO := by
  rw [clamp_eq]; norm_num

theorem theta_clampZ (c : Vec3 ℝ) (hz : |c.z| ≤ CLAMP_TO_ZERO) :
    cartesianToPolarTheta realGlm c = (.clampZ, some (Real.pi / 2)) := by
  simp only [cartesianToPolarTheta, if_pos hz, realGlm_pi]

theorem theta_axisPos (c : Vec3 ℝ) (hz : CLAMP_TO_ZERO < c.z)
    (hx : |c.x| ≤ CLAMP_TO_ZERO) (hy : |c.y| ≤ CLAMP_TO_ZERO) :
    cartesianToPolarTheta realGlm c = (.axisPos, some 0) := by
  have h0 : c.z > 0 := lt_trans clamp_pos hz
  have h1 : ¬ |c.z| ≤ CLAMP_TO_ZERO := by rw [abs_of_pos h0]; exact not_le.mpr hz
  simp only [cartesianToPolarTheta, if_neg h1, if_pos (And.intro hx hy), if_pos h0]

theorem theta_axisNeg (c : Vec3 ℝ) (hz : c.z < -CLAMP_TO_ZERO)
    (hx : |c.x| ≤ CLAMP_TO_ZERO) (hy : |c.y| ≤ CLAMP_TO_ZERO) :
    cartesianToPolarTheta realGlm c = (.axisNeg, some Real.pi) := by
  have h0 : c.z < 0 := by linarith [clamp_pos]
  have h1 : ¬ |c.z| ≤ CLAMP_TO_ZERO := by rw [abs_of_neg h0]; linarith
  have h2 : ¬ c.z > 0 := not_lt.mpr h0.le
  simp only [cartesianToPolarTheta, if_neg h1, if_pos (And.intro hx hy), if_neg h2, if_pos h0,
    realGlm_pi]

/-- Off the z-axis clamp the horizontal radius is positive. -/
theorem sqrt_xy_pos (c : Vec3 ℝ) (hxy : ¬ (|c.x| ≤ CLAMP_TO_ZERO ∧ |c.y| ≤ CLAMP_TO_ZERO)) :
    0 < Real.sqrt (c.x * c.x + c.y * c.y) := by
  apply Real.sqrt_pos.mpr
  by_contra hneg
  have hx : c.x = 0 := by nlinarith [mul_self_nonneg c.x, mul_self_nonneg c.y]
  have hy : c.y = 0 := by nlinarith [mul_self_nonneg c.x, mul_self_nonneg c.y]
  apply hxy
  rw [hx, hy, abs_zero]
  exact ⟨clamp_pos.le, clamp_pos.le⟩

theorem theta_upper (c : Vec3 ℝ) (hz : CLAMP_TO_ZERO < c.z)
    (hxy : ¬ (|c.x| ≤ CLAMP_TO_ZERO ∧ |c.y| ≤ CLAMP_TO_ZERO)) :
    cartesianToPolarTheta realGlm c
      = (.upper, some (Real.arctan (Real.sqrt (c.x * c.x + c.y * c.y) / c.z))) := by
  have h0 : c.z > 0 := lt_trans clamp_pos hz
  have h1 : ¬ |c.z| ≤ CLAMP_TO_ZERO := by rw [abs_of_pos h0]; exact not_le.mpr hz
  simp only [cartesianToPolarTheta, if_neg h1, if_neg hxy, if_pos h0, divide, if_neg h0.ne',
    Option.map_some', realGlm_sqrt, realGlm_atan]

theorem theta_lower (c : Vec3 ℝ) (hz : c.z < -CLAMP_TO_ZERO)
    (hxy : ¬ (|c.x| ≤ CLAMP_TO_ZERO ∧ |c.y| ≤ CLAMP_TO_ZERO)) :
    cartesianToPolarTheta realGlm c
      = (.lower, some (Real.pi / 2
          + Real.arctan (|c.z| / Real.sqrt (c.x * c.x + c.y * c.y)))) := by
  have h0 : c.z < 0 := by linarith [clamp_pos]
  have h1 : ¬ |c.z| ≤ CLAMP_TO_ZERO := by rw [abs_of_neg h0]; linarith
  have h2 : ¬ c.z > 0 := not_lt.mpr h0.le
  have h3 := (sqrt_xy_pos c hxy).ne'
  simp only [cartesianToPolarTheta, if_neg h1, if_neg hxy, if_neg h2, if_pos h0, divide,
    realGlm_sqrt, if_neg h3, Option.map_some', realGlm_atan, realGlm_pi]

/-! ## Which leaf of the `phi` chain is taken, and its value -/

theorem phi_xZeroYPos (c : Vec3 ℝ) (hx : c.x = 0) (hy : c.y > 0) :
    cartesianToPolarPhi realGlm c = (.xZeroYPos, some (Real.pi / 2)) := by
  simp only [cartesianToPolarPhi, if_pos hx, if_pos hy, realGlm_pi]

theorem phi_xZeroYNeg (c : Vec3 ℝ) (hx : c.x = 0) (hy : c.y < 0) :
    cartesianToPolarPhi realGlm c = (.xZeroYNeg, some (Real.pi * 3 / 2)) := by
  have h : ¬ c.y > 0 := not_lt.mpr hy.le
  simp only [cartesianToPolarPhi, if_pos hx, if_neg h, if_pos hy, realGlm_pi]

theorem phi_xZeroElse (c : Vec3 ℝ) (hx : c.x = 0) (hy : c.y = 0) :
    cartesianToPolarPhi realGlm c = (.xZeroElse, some 0) := by
  have h1 : ¬ c.y > 0 := by rw [hy]; exact lt_irrefl 0
  have h2 : ¬ c.y < 0 := by rw [hy]; exact lt_irrefl 0
  simp only [cartesianToPolarPhi, if_pos hx, if_neg h1, if_neg h2]

theorem phi_yZeroXPos (c : Vec3 ℝ) (hx : c.x > 0) (hy : c.y = 0) :
    cartesianToPolarPhi realGlm c = (.yZeroXPos, some 0) := by
  simp only [cartesianToPolarPhi, if_neg hx.ne', if_pos hy, if_pos hx]

theorem phi_yZeroXNeg (c : Vec3 ℝ) (hx : c.x < 0) (hy : c.y = 0) :
    cartesianToPolarPhi realGlm c = (.yZeroXNeg, some Real.pi) := by
  have h : ¬ c.x > 0 := not_lt.mpr hx.le
  simp only [cartesianToPolarPhi, if_neg hx.ne, if_pos hy, if_neg h, if_pos hx, realGlm_pi]

theorem phi_quadrant1 (c : Vec3 ℝ) (hx : c.x > 0) (hy : c.y > 0) :
    cartesianToPolarPhi realGlm c = (.quadrant1, some (Real.arctan (c.y / c.x))) := by
  simp only [cartesianToPolarPhi, if_neg hx.ne', if_neg hy.ne', if_pos (And.intro hy hx),
    divide, Option.map_some', realGlm_atan]

theorem phi_quadrant2 (c : Vec3 ℝ) (hx : c.x < 0) (hy : c.y > 0) :
    cartesianToPolarPhi realGlm c
      = (.quadrant2, some (Real.pi - Real.arctan (c.y / |c.x|))) := by
  have h1 : ¬ (c.y > 0 ∧ c.x > 0) := fun h => lt_asymm hx h.2
  have h2 : ¬ |c.x| = 0 := abs_ne_zero.mpr hx.ne
  simp only [cartesianToPolarPhi, if_neg hx.ne, if_neg hy.ne', if_neg h1,
    if_pos (And.intro hy hx), divide, if_neg h2, Option.map_some', realGlm_atan, realGlm_pi]

theorem phi_quadrant3 (c : Vec3 ℝ) (hx : c.x < 0) (hy : c.y < 0) :
    cartesianToPolarPhi realGlm c
      = (.quadrant3, some (Real.pi + Real.arctan (c.y / c.x))) := by
  have h1 : ¬ (c.y > 0 ∧ c.x > 0) := fun h => lt_asymm hx h.2
  have h2 : ¬ (c.y > 0 ∧ c.x < 0) := fun h => lt_asymm hy h.1
  simp only [cartesianToPolarPhi, if_neg hx.ne, if_neg hy.ne, if_neg h1, if_neg h2,
    if_pos (And.intro hy hx), divide, Option.map_some', realGlm_atan, realGlm_pi]

theorem phi_quadrant4 (c : Vec3 ℝ) (hx : c.x > 0) (hy : c.y < 0) :
    cartesianToPolarPhi realGlm c
      = (.quadrant4, some (2 * Real.pi - Real.arctan (|c.y| / c.x))) := by
  have h1 : ¬ (c.y > 0 ∧ c.x > 0) := fun h => lt_asymm hy h.1
  have h2 : ¬ (c.y > 0 ∧ c.x < 0) := fun h => lt_asymm hy h.1
  have h3 : ¬ (c.y < 0 ∧ c.x < 0) := fun h => lt_asymm hx h.2
  simp only [cartesianToPolarPhi, if_neg hx.ne', if_neg hy.ne, if_neg h1, if_neg h2, if_neg h3,
    if_pos (And.intro hy hx), divide, Option.map_some', realGlm_atan, realGlm_pi]

/-! ## Sine and cosine of an arctangent of a quotient -/

theorem sqrt_one_add_div_sq (a b : ℝ) (hb : 0 < b) :
    Real.sqrt (1 + (a / b) ^ 2) = Real.sqrt (a * a + b * b) / b := by
  have h : 1 + (a / b) ^ 2 = (a * a + b * b) / b ^ 2 := by
    field_simp
    ring
  rw [h, Real.sqrt_div (add_nonneg (mul_self_nonneg a) (mul_self_nonneg b)), Real.sqrt_sq hb.le]

theorem sqrt_sum_sq_pos (a b : ℝ) (hb : 0 < b) : 0 < Real.sqrt (a * a + b * b) :=
  Real.sqrt_pos.mpr (add_pos_of_nonneg_of_pos (mul_self_nonneg a) (mul_pos hb hb))

theorem cos_arctan_div (a b : ℝ) (hb : 0 < b) :
    Real.cos (Real.arctan (a / b)) = b / Real.sqrt (a * a + b * b) := by
  rw [Real.cos_arctan, sqrt_one_add_div_sq a b hb, one_div_div]

theorem sin_arctan_div (a b : ℝ) (hb : 0 < b) :
    Real.sin (Real.arctan (a / b)) = a / Real.sqrt (a * a + b * b) := by
  have h := (sqrt_sum_sq_pos a b hb).ne'
  rw [Real.sin_arctan, sqrt_one_add_div_sq a b hb]
  field_simp

theorem arctan_div_pos (a b : ℝ) (ha : 0 < a) (hb : 0 < b) : 0 < Real.arctan (a / b) := by
  rw [← Real.arctan_zero]
  exact Real.arctan_strictMono (div_pos ha hb)

theorem arctan_div_nonneg (a b : ℝ) (ha : 0 ≤ a) (hb : 0 < b) : 0 ≤ Real.arctan (a / b) := by
  rw [← Real.arctan_zero]
  exact Real.arctan_strictMono.monotone (div_nonneg ha hb.le)

/-! ## The azimuth `phi` -/

/-- For every input the `phi` chain yields a value (no division by zero), the
value lies in `[0, 2π)`, and it is the azimuth of `(x, y)`: multiplied by the
horizontal radius its cosine gives back `x` and its sine gives back `y`. -/
theorem phi_spec (c : Vec3 ℝ) :
    ∃ p, (cartesianToPolarPhi realGlm c).2 = some p ∧ 0 ≤ p ∧ p < 2 * Real.pi ∧
      Real.sqrt (c.x * c.x + c.y * c.y) * Real.cos p = c.x ∧
      Real.sqrt (c.x * c.x + c.y * c.y) * Real.sin p = c.y := by
  have hpi := Real.pi_pos
  rcases lt_trichotomy c.x 0 with hx | hx | hx <;> rcases lt_trichotomy c.y 0 with hy | hy | hy
  · -- x < 0, y < 0
    have hb : 0 < -c.x := neg_pos.mpr hx
    have ha : 0 < -c.y := neg_pos.mpr hy
    have e : c.y / c.x = (-c.y) / (-c.x) := (neg_div_neg_eq _ _).symm
    have hr : Real.sqrt ((-c.y) * (-c.y) + (-c.x) * (-c.x))
        = Real.sqrt (c.x * c.x + c.y * c.y) := by congr 1; ring
    have hrpos : 0 < Real.sqrt (c.x * c.x + c.y * c.y) := hr ▸ sqrt_sum_sq_pos _ _ hb
    have hu0 := arctan_div_pos _ _ ha hb
    have hu1 := Real.arctan_lt_pi_div_two ((-c.y) / (-c.x))
    refine ⟨Real.pi + Real.arctan (c.y / c.x), by rw [phi_quadrant3 c hx hy], ?_, ?_, ?_, ?_⟩
    · rw [e]; linarith
    · rw [e]; linarith
    · rw [e, add_comm Real.pi, Real.cos_add_pi, cos_arctan_div _ _ hb, hr]
      field_simp
    · rw [e, add_comm Real.pi, Real.sin_add_pi, sin_arctan_div _ _ hb, hr]
      field_simp
  · -- x < 0, y = 0
    have hr : Real.sqrt (c.x * c.x + c.y * c.y) = -c.x := by
      rw [hy, mul_zero, add_zero, Real.sqrt_mul_self_eq_abs, abs_of_neg hx]
    refine ⟨Real.pi, by rw [phi_yZeroXNeg c hx hy], hpi.le, by linarith, ?_, ?_⟩
    · rw [hr, Real.cos_pi]; ring
    · rw [hr, Real.sin_pi, hy]; ring
  · -- x < 0, y > 0
    have hb : 0 < -c.x := neg_pos.mpr hx
    have e : |c.x| = -c.x := abs_of_neg hx
    have hr : Real.sqrt (c.y * c.y + (-c.x) * (-c.x))
        = Real.sqrt (c.x * c.x + c.y * c.y) := by congr 1; ring
    have hrpos : 0 < Real.sqrt (c.x * c.x + c.y * c.y) := hr ▸ sqrt_sum_sq_pos _ _ hb
    have hu0 := arctan_div_pos _ _ hy hb
    have hu1 := Real.arctan_lt_pi_div_two (c.y / (-c.x))
    refine ⟨Real.pi - Real.arctan (c.y / |c.x|), by rw [phi_quadrant2 c hx hy], ?_, ?_, ?_, ?_⟩
    · rw [e]; linarith
    · rw [e]; linarith
    · rw [e, Real.cos_pi_sub, cos_arctan_div _ _ hb, hr]
      field_simp
    · rw [e, Real.sin_pi_sub, sin_arctan_div _ _ hb, hr]
      field_simp
  · -- x = 0, y < 0
    have hr : Real.sqrt (c.x * c.x + c.y * c.y) = -c.y := by
      rw [hx, mul_zero, zero_add, Real.sqrt_mul_self_eq_abs, abs_of_neg hy]
    have e : Real.pi * 3 / 2 = Real.pi / 2 + Real.pi := by ring
    refine ⟨Real.pi * 3 / 2, by rw [phi_xZeroYNeg c hx hy], by positivity, by linarith, ?_, ?_⟩
    · rw [hr, e, Real.cos_add_pi, Real.cos_pi_div_two, hx]; ring
    · rw [hr, e, Real.sin_add_pi, Real.sin_pi_div_two]; ring
  · -- x = 0, y = 0
    refine ⟨0, by rw [phi_xZeroElse c hx hy], le_refl 0, by linarith, ?_, ?_⟩
    · rw [hx, hy]; simp
    · rw [hx, hy]; simp
  · -- x = 0, y > 0
    have hr : Real.sqrt (c.x * c.x + c.y * c.y) = c.y := by
      rw [hx, mul_zero, zero_add, Real.sqrt_mul_self_eq_abs, abs_of_pos hy]
    refine ⟨Real.pi / 2, by rw [phi_xZeroYPos c hx hy], by positivity, by linarith, ?_, ?_⟩
    · rw [hr, Real.cos_pi_div_two, hx]; ring
    · rw [hr, Real.sin_pi_div_two]; ring
  · -- x > 0, y < 0
    have ha : 0 < -c.y := neg_pos.mpr hy
    have e : |c.y| = -c.y := abs_of_neg hy
    have hr : Real.sqrt ((-c.y) * (-c.y) + c.x * c.x)
        = Real.sqrt (c.x * c.x + c.y * c.y) := by congr 1; ring
    have hrpos : 0 < Real.sqrt (c.x * c.x + c.y * c.y) := hr ▸ sqrt_sum_sq_pos _ _ hx
    have hu0 := arctan_div_pos _ _ ha hx
    have hu1 := Real.arctan_lt_pi_div_two ((-c.y) / c.x)
    refine ⟨2 * Real.pi - Real.arctan (|c.y| / c.x), by rw [phi_quadrant4 c hx hy],
      ?_, ?_, ?_, ?_⟩
    · rw [e]; linarith
    · rw [e]; linarith
    · rw [e, Real.cos_two_pi_sub, cos_arctan_div _ _ hx, hr]
      field_simp
    · rw [e, Real.sin_two_pi_sub, sin_arctan_div _ _ hx, hr]
      field_simp
  · -- x > 0, y = 0
    have hr : Real.sqrt (c.x * c.x + c.y * c.y) = c.x := by
      rw [hy, mul_zero, add_zero, Real.sqrt_mul_self_eq_abs, abs_of_pos hx]
    refine ⟨0, by rw [phi_yZeroXPos c hx hy], le_refl 0, by linarith, ?_, ?_⟩
    · rw [hr, Real.cos_zero]; ring
    · rw [hr, Real.sin_zero, hy]; ring
  · -- x > 0, y > 0
    have hr : Real.sqrt (c.y * c.y + c.x * c.x)
        = Real.sqrt (c.x * c.x + c.y * c.y) := by congr 1; ring
    have hrpos : 0 < Real.sqrt (c.x * c.x + c.y * c.y) := hr ▸ sqrt_sum_sq_pos _ _ hx
    have hu0 := arctan_div_pos _ _ hy hx
    have hu1 := Real.arctan_lt_pi_div_two (c.y / c.x)
    refine ⟨Real.arctan (c.y / c.x), by rw [phi_quadrant1 c hx hy], ?_, ?_, ?_, ?_⟩
    · linarith
    · linarith
    · rw [cos_arctan_div _ _ hx, hr]
      field_simp
    · rw [sin_arctan_div _ _ hx, hr]
      field_simp

/-! ## The polar angle `theta` -/

theorem sqrt_xy_sq_add (x y z : ℝ) :
    Real.sqrt (x * x + y * y) * Real.sqrt (x * x + y * y) + z * z = x * x + y * y + z * z := by
  rw [Real.mul_self_sqrt (add_nonneg (mul_self_nonneg x) (mul_self_nonneg y))]

/-- For every input the `theta` chain yields a value (no division by zero) and
the value lies in `[0, π]`; outside the two clamp regions it is the polar
angle of the point: multiplied by the radius its cosine gives back `z` and its
sine gives the horizontal radius. -/
theorem theta_spec (c : Vec3 ℝ) :
    ∃ t, (cartesianToPolarTheta realGlm c).2 = some t ∧ 0 ≤ t ∧ t ≤ Real.pi ∧
      (CLAMP_TO_ZERO < |c.z| → ¬ (|c.x| ≤ CLAMP_TO_ZERO ∧ |c.y| ≤ CLAMP_TO_ZERO) →
        Real.sqrt (c.x * c.x + c.y * c.y + c.z * c.z) * Real.cos t = c.z ∧
        Real.sqrt (c.x * c.x + c.y * c.y + c.z * c.z) * Real.sin t
          = Real.sqrt (c.x * c.x + c.y * c.y)) := by
  have hpi := Real.pi_pos
  by_cases hz : |c.z| ≤ CLAMP_TO_ZERO
  · exact ⟨Real.pi / 2, by rw [theta_clampZ c hz], by positivity, by linarith,
      fun h => absurd hz (not_le.mpr h)⟩
  have hz' : CLAMP_TO_ZERO < |c.z| := not_le.mp hz
  rcases lt_abs.mp hz' with hpos | hneg
  · -- z above the clamp
    have h0 : 0 < c.z := lt_trans clamp_pos hpos
    by_cases hxy : |c.x| ≤ CLAMP_TO_ZERO ∧ |c.y| ≤ CLAMP_TO_ZERO
    · exact ⟨0, by rw [theta_axisPos c hpos hxy.1 hxy.2], le_refl 0, hpi.le,
        fun _ h => absurd hxy h⟩
    · have hr : Real.sqrt (Real.sqrt (c.x * c.x + c.y * c.y) * Real.sqrt (c.x * c.x + c.y * c.y)
          + c.z * c.z) = Real.sqrt (c.x * c.x + c.y * c.y + c.z * c.z) := by
        rw [sqrt_xy_sq_add]
      have hrpos : 0 < Real.sqrt (c.x * c.x + c.y * c.y + c.z * c.z) :=
        hr ▸ sqrt_sum_sq_pos _ _ h0
      have hu0 := arctan_div_nonneg _ _ (Real.sqrt_nonneg (c.x * c.x + c.y * c.y)) h0
      have hu1 := Real.arctan_lt_pi_div_two (Real.sqrt (c.x * c.x + c.y * c.y) / c.z)
      refine ⟨Real.arctan (Real.sqrt (c.x * c.x + c.y * c.y) / c.z),
        by rw [theta_upper c hpos hxy], hu0, by linarith, fun _ _ => ⟨?_, ?_⟩⟩
      · rw [cos_arctan_div _ _ h0, hr]
        field_simp
      · rw [sin_arctan_div _ _ h0, hr]
        field_simp
  · -- z below the clamp
    have hneg' : c.z < -CLAMP_TO_ZERO := by linarith
    have h0 : c.z < 0 := by linarith [clamp_pos]
    by_cases hxy : |c.x| ≤ CLAMP_TO_ZERO ∧ |c.y| ≤ CLAMP_TO_ZERO
    · exact ⟨Real.pi, by rw [theta_axisNeg c hneg' hxy.1 hxy.2], hpi.le, le_refl _,
        fun _ h => absurd hxy h⟩
    · have hb := sqrt_xy_pos c hxy
      have e : |c.z| = -c.z := abs_of_neg h0
      have hr : Real.sqrt ((-c.z) * (-c.z)
          + Real.sqrt (c.x * c.x + c.y * c.y) * Real.sqrt (c.x * c.x + c.y * c.y))
          = Real.sqrt (c.x * c.x + c.y * c.y + c.z * c.z) := by
        rw [neg_mul_neg, add_comm, sqrt_xy_sq_add]
      have hrpos : 0 < Real.sqrt (c.x * c.x + c.y * c.y + c.z * c.z) :=
        hr ▸ sqrt_sum_sq_pos _ _ hb
      have hu0 := arctan_div_nonneg _ _ (neg_pos.mpr h0).le hb
      have hu1 := Real.arctan_lt_pi_div_two ((-c.z) / Real.sqrt (c.x * c.x + c.y * c.y))
      refine ⟨Real.pi / 2 + Real.arctan (|c.z| / Real.sqrt (c.x * c.x + c.y * c.y)),
        by rw [theta_lower c hneg' hxy], ?_, ?_, fun _ _ => ⟨?_, ?_⟩⟩
      · rw [e]; linarith
      · rw [e]; linarith
      · rw [e, add_comm (Real.pi / 2), Real.cos_add_pi_div_two, sin_arctan_div _ _ hb, hr]
        field_simp
      · rw [e, add_comm (Real.pi / 2), Real.sin_add_pi_div_two, cos_arctan_div _ _ hb, hr]
        field_simp

/-! ## Assembling the result of `cartesianToPolarPoint` -/

theorem cartesianToPolarPoint_eq (c : Vec3 ℝ) (t p : ℝ)
    (ht : (cartesianToPolarTheta realGlm c).2 = some t)
    (hp : (cartesianToPolarPhi realGlm c).2 = some p) :
    cartesianToPolarPoint realGlm c
      = some ⟨Real.sqrt (c.x * c.x + c.y * c.y + c.z * c.z), t, p⟩ := by
  simp only [cartesianToPolarPoint, ht, hp, realGlm_sqrt]

/-- Outside the two clamp regions converting to polar and back returns the
point itself. -/
theorem roundtrip_exact (c : Vec3 ℝ) (hz : CLAMP_TO_ZERO < |c.z|)
    (hxy : ¬ (|c.x| ≤ CLAMP_TO_ZERO ∧ |c.y| ≤ CLAMP_TO_ZERO)) :
    ∃ q, cartesianToPolarPoint realGlm c = some q ∧ polarToCartesianPoint realGlm q = c := by
  obtain ⟨t, ht, -, -, htrig⟩ := theta_spec c
  obtain ⟨p, hp, -, -, hpx, hpy⟩ := phi_spec c
  obtain ⟨hcos, hsin⟩ := htrig hz hxy
  refine ⟨_, cartesianToPolarPoint_eq c t p ht hp, ?_⟩
  simp only [polarToCartesianPoint, realGlm_sin, realGlm_cos]
  rw [hsin, hcos, hpx, hpy]

/-- Two angles of `[0, 2π)` with the same cosine and the same sine are equal. -/
theorem angle_unique (a b : ℝ) (ha0 : 0 ≤ a) (ha1 : a < 2 * Real.pi)
    (hb0 : 0 ≤ b) (hb1 : b < 2 * Real.pi)
    (hcos : Real.cos a = Real.cos b) (hsin : Real.sin a = Real.sin b) : a = b := by
  have h1 : Real.cos (a - b) = 1 := by
    rw [Real.cos_sub, hcos, hsin]
    nlinarith [Real.sin_sq_add_cos_sq b]
  have h2 := (Real.cos_eq_one_iff_of_lt_of_lt (by linarith) (by linarith)).mp h1
  linarith

/-- Converting a polar point to Cartesian and back returns the polar point
itself whenever its Cartesian image lies outside the two clamp regions. -/
theorem inverse_roundtrip_exact (pol : Vec3 ℝ) (hr : 0 ≤ pol.x)
    (ht0 : 0 ≤ pol.y) (ht1 : pol.y ≤ Real.pi) (hp0 : 0 ≤ pol.z) (hp1 : pol.z < 2 * Real.pi)
    (hz : CLAMP_TO_ZERO < |(polarToCartesianPoint realGlm pol).z|)
    (hxy : ¬ (|(polarToCartesianPoint realGlm pol).x| ≤ CLAMP_TO_ZERO
      ∧ |(polarToCartesianPoint realGlm pol).y| ≤ CLAMP_TO_ZERO)) :
    cartesianToPolarPoint realGlm (polarToCartesianPoint realGlm pol) = some pol := by
  obtain ⟨r, th, ph⟩ := pol
  simp only at hr ht0 ht1 hp0 hp1
  obtain ⟨t, ht, htl, htu, htrig⟩ := theta_spec (polarToCartesianPoint realGlm ⟨r, th, ph⟩)
  obtain ⟨p, hp, hpl, hpu, hpx, hpy⟩ := phi_spec (polarToCartesianPoint realGlm ⟨r, th, ph⟩)
  obtain ⟨hcos, -⟩ := htrig hz hxy
  rw [cartesianToPolarPoint_eq _ t p ht hp]
  simp only [polarToCartesianPoint, realGlm_sin, realGlm_cos] at hz hxy hcos hpx hpy ⊢
  have hsin_nonneg : 0 ≤ Real.sin th := Real.sin_nonneg_of_nonneg_of_le_pi ht0 ht1
  -- the radius is positive, because `z` is not zero
  have hrpos : 0 < r := by
    rcases hr.lt_or_eq with h | h
    · exact h
    · exfalso
      rw [← h, zero_mul, abs_zero] at hz
      exact absurd hz (not_lt.mpr clamp_pos.le)
  -- the sine of the polar angle is positive, because `x` or `y` is not zero
  have hsin_pos : 0 < Real.sin th := by
    rcases hsin_nonneg.lt_or_eq with h | h
    · exact h
    · exfalso
      apply hxy
      rw [← h, mul_zero, zero_mul, zero_mul, abs_zero]
      exact ⟨clamp_pos.le, clamp_pos.le⟩
  have hR : Real.sqrt (r * Real.sin th * Real.cos ph * (r * Real.sin th * Real.cos ph)
      + r * Real.sin th * Real.sin ph * (r * Real.sin th * Real.sin ph)
      + r * Real.cos th * (r * Real.cos th)) = r := by
    have e : r * Real.sin th * Real.cos ph * (r * Real.sin th * Real.cos ph)
        + r * Real.sin th * Real.sin ph * (r * Real.sin th * Real.sin ph)
        + r * Real.cos th * (r * Real.cos th) = r * r := by
      have h1 := Real.sin_sq_add_cos_sq th
      have h2 := Real.sin_sq_add_cos_sq ph
      have h3 : Real.cos th ^ 2 = 1 - Real.sin th ^ 2 := by linarith
      have h4 : Real.cos ph ^ 2 = 1 - Real.sin ph ^ 2 := by linarith
      ring_nf
      rw [h3, h4]
      ring
    rw [e, Real.sqrt_mul_self hr]
  have hrho : Real.sqrt (r * Real.sin th * Real.cos ph * (r * Real.sin th * Real.cos ph)
      + r * Real.sin th * Real.sin ph * (r * Real.sin th * Real.sin ph)) = r * Real.sin th := by
    have e : r * Real.sin th * Real.cos ph * (r * Real.sin th * Real.cos ph)
        + r * Real.sin th * Real.sin ph * (r * Real.sin th * Real.sin ph)
        = r * Real.sin th * (r * Real.sin th) := by
      have h2 := Real.sin_sq_add_cos_sq ph
      have h4 : Real.cos ph ^ 2 = 1 - Real.sin ph ^ 2 := by linarith
      ring_nf
      rw [h4]
      ring
    rw [e, Real.sqrt_mul_self (mul_nonneg hr hsin_nonneg)]
  rw [hR] at hcos ⊢
  rw [hrho] at hpx hpy
  have hrs : r * Real.sin th ≠ 0 := (mul_pos hrpos hsin_pos).ne'
  have e1 : Real.cos t = Real.cos th := mul_left_cancel₀ hrpos.ne' hcos
  have e2 : Real.cos p = Real.cos ph := mul_left_cancel₀ hrs hpx
  have e3 : Real.sin p = Real.sin ph := mul_left_cancel₀ hrs hpy
  have e4 : t = th := Real.injOn_cos ⟨htl, htu⟩ ⟨ht0, ht1⟩ e1
  have e5 : p = ph := angle_unique p ph hpl hpu hp0 hp1 e2 e3
  rw [e4, e5]

/-! ## The two-argument arctangent -/

theorem atan2_zero_zero : atan2 0 0 = 0 := by
  have h : (⟨0, 0⟩ : ℂ) = 0 := rfl
  rw [atan2, h, Complex.arg_zero]

/-- The angle `atan2(b, a)` of a point given in polar form. -/
theorem atan2_of_polar (a b rho t : ℝ) (hrho : 0 < rho) (ht0 : -Real.pi < t)
    (ht1 : t ≤ Real.pi) (ha : rho * Real.cos t = a) (hb : rho * Real.sin t = b) :
    atan2 b a = t := by
  have h : (⟨a, b⟩ : ℂ) = (rho : ℂ) * (Complex.cos t + Complex.sin t * Complex.I) := by
    apply Complex.ext
    · simp [← ha, Complex.cos_ofReal_re, Complex.sin_ofReal_im]
    · simp [← hb, Complex.cos_ofReal_im, Complex.sin_ofReal_re]
  rw [atan2, h]
  exact Complex.arg_mul_cos_add_sin_mul_I hrho ⟨ht0, ht1⟩

/-! ## Round trip Cartesian → polar → Cartesian -/

/-- C1 (as stated, refuted): the point `(1, 0, 0.0005)` has radius greater than
`EPS = 0.001`, yet its round trip moves the `z` component by `0.0005`, more
than the tolerance `1e-4`: `theta` is clamped to `π/2`, so `z` comes back
as `0`. -/
theorem roundtrip_tolerance_fails_in_clamp :
    CLAMP_TO_ZERO < Real.sqrt ((1 : ℝ) * 1 + 0 * 0 + (1 / 2000) * (1 / 2000)) ∧
    ∃ q, cartesianToPolarPoint realGlm ⟨1, 0, 1 / 2000⟩ = some q ∧
      1 / 10000 < |(polarToCartesianPoint realGlm q).z - 1 / 2000| := by
  constructor
  · rw [clamp_eq, Real.lt_sqrt (by norm_num)]
    norm_num
  · have ht : (cartesianToPolarTheta realGlm ⟨1, 0, 1 / 2000⟩).2 = some (Real.pi / 2) := by
      rw [theta_clampZ]
      show |(1 / 2000 : ℝ)| ≤ CLAMP_TO_ZERO
      rw [clamp_eq, abs_of_pos (by norm_num)]
      norm_num
    have hp : (cartesianToPolarPhi realGlm ⟨1, 0, 1 / 2000⟩).2 = some 0 := by
      rw [phi_yZeroXPos _ (show (0 : ℝ) < 1 by norm_num) rfl]
    refine ⟨_, cartesianToPolarPoint_eq _ _ _ ht hp, ?_⟩
    simp only [polarToCartesianPoint, realGlm_cos, Real.cos_pi_div_two, mul_zero]
    norm_num [abs_of_pos]

/-- C1 (amended): for every Cartesian point outside the two clamp regions,
that is with `|z| > EPS` and (`|x| > EPS` or `|y| > EPS`), the round trip
`polarToCartesianPoint (cartesianToPolarPoint p)` is defined and agrees with
`p` within `1e-4` on each of the three components. -/
theorem roundtrip_within_tolerance (c : Vec3 ℝ) (hz : CLAMP_TO_ZERO < |c.z|)
    (hxy : CLAMP_TO_ZERO < |c.x| ∨ CLAMP_TO_ZERO < |c.y|) :
    ∃ q, cartesianToPolarPoint realGlm c = some q ∧
      |(polarToCartesianPoint realGlm q).x - c.x| ≤ 1 / 10000 ∧
      |(polarToCartesianPoint realGlm q).y - c.y| ≤ 1 / 10000 ∧
      |(polarToCartesianPoint realGlm q).z - c.z| ≤ 1 / 10000 := by
  have hxy' : ¬ (|c.x| ≤ CLAMP_TO_ZERO ∧ |c.y| ≤ CLAMP_TO_ZERO) := by
    rintro ⟨h1, h2⟩
    rcases hxy with h | h
    · exact absurd h1 (not_le.mpr h)
    · exact absurd h2 (not_le.mpr h)
  obtain ⟨q, hq, hback⟩ := roundtrip_exact c hz hxy'
  refine ⟨q, hq, ?_⟩
  rw [hback]
  simp only [sub_self, abs_zero]
  norm_num

/-- C1 (amended), at the point `(1, 2, 3)`. -/
theorem roundtrip_within_tolerance_witness :
    ∃ q, cartesianToPolarPoint realGlm ⟨1, 2, 3⟩ = some q ∧
      |(polarToCartesianPoint realGlm q).x - 1| ≤ 1 / 10000 ∧
      |(polarToCartesianPoint realGlm q).y - 2| ≤ 1 / 10000 ∧
      |(polarToCartesianPoint realGlm q).z - 3| ≤ 1 / 10000 :=
  roundtrip_within_tolerance ⟨1, 2, 3⟩
    (by show CLAMP_TO_ZERO < |(3 : ℝ)|; rw [clamp_eq, abs_of_pos (by norm_num)]; norm_num)
    (Or.inl (by show CLAMP_TO_ZERO < |(1 : ℝ)|; rw [clamp_eq, abs_of_pos (by norm_num)]; norm_num))

/-! ## Round trip polar → Cartesian → polar -/

/-- C2 (as stated, refuted): the polar point `(1, π/2 - 0.0005, 0)` satisfies
`r ≥ 0`, `theta ∈ [0, π]`, `phi ∈ [0, 2π)`, yet converting it to Cartesian and
back changes `theta` by `0.0005`, more than the tolerance `1e-4`: its image
has `0 ≤ z ≤ EPS`, so `theta` is clamped to `π/2`. -/
theorem inverse_roundtrip_tolerance_fails_in_clamp :
    (0 : ℝ) ≤ 1 ∧ 0 ≤ Real.pi / 2 - 1 / 2000 ∧ Real.pi / 2 - 1 / 2000 ≤ Real.pi ∧
    (0 : ℝ) ≤ 0 ∧ (0 : ℝ) < 2 * Real.pi ∧
    ∃ q, cartesianToPolarPoint realGlm
        (polarToCartesianPoint realGlm ⟨1, Real.pi / 2 - 1 / 2000, 0⟩) = some q ∧
      1 / 10000 < |q.y - (Real.pi / 2 - 1 / 2000)| := by
  have hpi := Real.pi_gt_three
  refine ⟨zero_le_one, by linarith, by linarith, le_refl 0, by linarith, ?_⟩
  have hz : |(polarToCartesianPoint realGlm ⟨1, Real.pi / 2 - 1 / 2000, 0⟩).z|
      ≤ CLAMP_TO_ZERO := by
    simp only [polarToCartesianPoint, realGlm_cos, one_mul, Real.cos_pi_div_two_sub]
    have h0 : 0 ≤ Real.sin (1 / 2000) :=
      Real.sin_nonneg_of_nonneg_of_le_pi (by norm_num) (by linarith)
    have h1 : Real.sin (1 / 2000) < 1 / 2000 := Real.sin_lt (by norm_num)
    rw [abs_of_nonneg h0, clamp_eq]
    linarith
  obtain ⟨p, hp, -⟩ := phi_spec (polarToCartesianPoint realGlm ⟨1, Real.pi / 2 - 1 / 2000, 0⟩)
  refine ⟨_, cartesianToPolarPoint_eq _ (Real.pi / 2) p (by rw [theta_clampZ _ hz]) hp, ?_⟩
  show 1 / 10000 < |Real.pi / 2 - (Real.pi / 2 - 1 / 2000)|
  rw [sub_sub_cancel, abs_of_pos (by norm_num)]
  norm_num

/-- C2 (amended): for every polar point `(r, theta, phi)` with `r ≥ 0`,
`theta ∈ [0, π]`, `phi ∈ [0, 2π)` whose Cartesian image lies outside the two
clamp regions (`|z| > EPS` and not both `|x| ≤ EPS` and `|y| ≤ EPS`),
`cartesianToPolarPoint (polarToCartesianPoint p)` is defined and agrees with
`p` within `1e-4` on `r`, on `theta` and on `phi` (with no wrap of `phi`). -/
theorem inverse_roundtrip_within_tolerance (pol : Vec3 ℝ) (hr : 0 ≤ pol.x)
    (ht0 : 0 ≤ pol.y) (ht1 : pol.y ≤ Real.pi) (hp0 : 0 ≤ pol.z) (hp1 : pol.z < 2 * Real.pi)
    (hz : CLAMP_TO_ZERO < |(polarToCartesianPoint realGlm pol).z|)
    (hxy : ¬ (|(polarToCartesianPoint realGlm pol).x| ≤ CLAMP_TO_ZERO
      ∧ |(polarToCartesianPoint realGlm pol).y| ≤ CLAMP_TO_ZERO)) :
    ∃ q, cartesianToPolarPoint realGlm (polarToCartesianPoint realGlm pol) = some q ∧
      |q.x - pol.x| ≤ 1 / 10000 ∧ |q.y - pol.y| ≤ 1 / 10000 ∧ |q.z - pol.z| ≤ 1 / 10000 := by
  refine ⟨pol, inverse_roundtrip_exact pol hr ht0 ht1 hp0 hp1 hz hxy, ?_⟩
  simp only [sub_self, abs_zero]
  norm_num

/-- C2 (amended), at the polar point `(2, π/4, 0)`, whose image is
`(√2, 0, √2)`. -/
theorem inverse_roundtrip_within_tolerance_witness :
    ∃ q, cartesianToPolarPoint realGlm
        (polarToCartesianPoint realGlm ⟨2, Real.pi / 4, 0⟩) = some q ∧
      |q.x - 2| ≤ 1 / 10000 ∧ |q.y - Real.pi / 4| ≤ 1 / 10000 ∧ |q.z - 0| ≤ 1 / 10000 := by
  have hpi := Real.pi_pos
  have h2 : (1 / 1000 : ℝ) < Real.sqrt 2 := by
    rw [Real.lt_sqrt (by norm_num)]
    norm_num
  have hz : CLAMP_TO_ZERO < |(polarToCartesianPoint realGlm ⟨2, Real.pi / 4, 0⟩).z| := by
    simp only [polarToCartesianPoint, realGlm_cos, Real.cos_pi_div_four]
    rw [clamp_eq, abs_of_pos (by positivity)]
    linarith
  have hx : CLAMP_TO_ZERO < |(polarToCartesianPoint realGlm ⟨2, Real.pi / 4, 0⟩).x| := by
    simp only [polarToCartesianPoint, realGlm_cos, realGlm_sin, Real.sin_pi_div_four,
      Real.cos_zero, mul_one]
    rw [clamp_eq, abs_of_pos (by positivity)]
    linarith
  exact inverse_roundtrip_within_tolerance ⟨2, Real.pi / 4, 0⟩ (by norm_num)
    (by show 0 ≤ Real.pi / 4; positivity) (by show Real.pi / 4 ≤ Real.pi; linarith)
    (le_refl 0) (by show (0 : ℝ) < 2 * Real.pi; linarith) hz
    (fun h => absurd h.1 (not_le.mpr hx))

/-! ## The angles as two-argument arctangents -/

/-- C3: for every input the `phi` component returned by
`cartesianToPolarPoint` is `atan2(y, x)` normalised into `[0, 2π)`. -/
theorem phi_eq_atan2Normalized (c : Vec3 ℝ) :
    ∃ q, cartesianToPolarPoint realGlm c = some q ∧ q.z = atan2Normalized c.y c.x := by
  have hpi := Real.pi_pos
  obtain ⟨t, ht, -⟩ := theta_spec c
  by_cases h0 : c.x = 0 ∧ c.y = 0
  · -- the origin of the plane: `phi = 0 = atan2(0, 0)`
    refine ⟨_, cartesianToPolarPoint_eq c t 0 ht (by rw [phi_xZeroElse c h0.1 h0.2]), ?_⟩
    show (0 : ℝ) = atan2Normalized c.y c.x
    rw [h0.1, h0.2, atan2Normalized, atan2_zero_zero, if_pos (le_refl 0)]
  · obtain ⟨p, hp, hp0, hp1, hpx, hpy⟩ := phi_spec c
    refine ⟨_, cartesianToPolarPoint_eq c t p ht hp, ?_⟩
    show p = atan2Normalized c.y c.x
    have hrho : 0 < Real.sqrt (c.x * c.x + c.y * c.y) := by
      apply Real.sqrt_pos.mpr
      by_contra hneg
      apply h0
      constructor <;> nlinarith [mul_self_nonneg c.x, mul_self_nonneg c.y]
    by_cases hle : p ≤ Real.pi
    · have e := atan2_of_polar c.x c.y _ p hrho (by linarith) hle hpx hpy
      rw [atan2Normalized, e, if_pos hp0]
    · have hlt : Real.pi < p := not_le.mp hle
      have e := atan2_of_polar c.x c.y _ (p - 2 * Real.pi) hrho (by linarith) (by linarith)
        (by rw [Real.cos_sub_two_pi]; exact hpx) (by rw [Real.sin_sub_two_pi]; exact hpy)
      have hneg : ¬ (0 ≤ p - 2 * Real.pi) := by linarith
      rw [atan2Normalized, e, if_neg hneg]
      ring

/-- C4 (as stated, refuted): at the point `(1, 0, 0.0005)` the code returns
`theta = π/2` (the `|z| ≤ EPS` clamp), which is not `atan2(sqrt(x²+y²), z)`:
that angle is `π/2` only for `z = 0`. -/
theorem theta_ne_atan2_in_clamp :
    ∃ q, cartesianToPolarPoint realGlm ⟨1, 0, 1 / 2000⟩ = some q ∧
      q.y ≠ atan2 (Real.sqrt ((1 : ℝ) * 1 + 0 * 0)) (1 / 2000) := by
  have ht : (cartesianToPolarTheta realGlm ⟨1, 0, 1 / 2000⟩).2 = some (Real.pi / 2) := by
    rw [theta_clampZ]
    show |(1 / 2000 : ℝ)| ≤ CLAMP_TO_ZERO
    rw [clamp_eq, abs_of_pos (by norm_num)]
    norm_num
  have hp : (cartesianToPolarPhi realGlm ⟨1, 0, 1 / 2000⟩).2 = some 0 := by
    rw [phi_yZeroXPos _ (show (0 : ℝ) < 1 by norm_num) rfl]
  refine ⟨_, cartesianToPolarPoint_eq _ _ _ ht hp, ?_⟩
  show Real.pi / 2 ≠ atan2 (Real.sqrt ((1 : ℝ) * 1 + 0 * 0)) (1 / 2000)
  intro h
  rw [atan2] at h
  have h' := (Complex.arg_eq_pi_div_two_iff.mp h.symm).1
  norm_num at h'

/-- C4 (amended): for every input outside the two clamp regions (`|z| > EPS`
and not both `|x| ≤ EPS` and `|y| ≤ EPS`) the `theta` component returned by
`cartesianToPolarPoint` equals `atan2(sqrt(x²+y²), z)`. -/
theorem theta_eq_atan2 (c : Vec3 ℝ) (hz : CLAMP_TO_ZERO < |c.z|)
    (hxy : ¬ (|c.x| ≤ CLAMP_TO_ZERO ∧ |c.y| ≤ CLAMP_TO_ZERO)) :
    ∃ q, cartesianToPolarPoint realGlm c = some q ∧
      q.y = atan2 (Real.sqrt (c.x * c.x + c.y * c.y)) c.z := by
  have hpi := Real.pi_pos
  obtain ⟨t, ht, ht0, ht1, htrig⟩ := theta_spec c
  obtain ⟨p, hp, -⟩ := phi_spec c
  obtain ⟨hcos, hsin⟩ := htrig hz hxy
  refine ⟨_, cartesianToPolarPoint_eq c t p ht hp, ?_⟩
  show t = atan2 (Real.sqrt (c.x * c.x + c.y * c.y)) c.z
  have hR : 0 < Real.sqrt (c.x * c.x + c.y * c.y + c.z * c.z) := by
    apply Real.sqrt_pos.mpr
    have hz0 : c.z ≠ 0 := by
      intro h
      rw [h, abs_zero] at hz
      exact absurd hz (not_lt.mpr clamp_pos.le)
    have := mul_self_pos.mpr hz0
    nlinarith [mul_self_nonneg c.x, mul_self_nonneg c.y]
  exact (atan2_of_polar _ _ _ t hR (by linarith) ht1 hcos hsin).symm

/-- C4 (amended), at the point `(1, 2, 3)`. -/
theorem theta_eq_atan2_witness :
    ∃ q, cartesianToPolarPoint realGlm ⟨1, 2, 3⟩ = some q ∧
      q.y = atan2 (Real.sqrt ((1 : ℝ) * 1 + 2 * 2)) 3 :=
  theta_eq_atan2 ⟨1, 2, 3⟩
    (by show CLAMP_TO_ZERO < |(3 : ℝ)|; rw [clamp_eq, abs_of_pos (by norm_num)]; norm_num)
    (fun h => absurd h.1 (by
      show ¬ |(1 : ℝ)| ≤ CLAMP_TO_ZERO
      rw [clamp_eq, abs_of_pos (by norm_num)]; norm_num))

/-! ## Ranges of the returned components -/

/-- C5: for every input the `theta` component returned by
`cartesianToPolarPoint` lies in `[0, π]`. -/
theorem theta_mem_zero_pi (c : Vec3 ℝ) :
    ∃ q, cartesianToPolarPoint realGlm c = some q ∧ 0 ≤ q.y ∧ q.y ≤ Real.pi := by
  obtain ⟨t, ht, ht0, ht1, -⟩ := theta_spec c
  obtain ⟨p, hp, -⟩ := phi_spec c
  exact ⟨_, cartesianToPolarPoint_eq c t p ht hp, ht0, ht1⟩

/-- C6: for every input the `phi` component returned by
`cartesianToPolarPoint` lies in `[0, 2π)`. -/
theorem phi_mem_zero_two_pi (c : Vec3 ℝ) :
    ∃ q, cartesianToPolarPoint realGlm c = some q ∧ 0 ≤ q.z ∧ q.z < 2 * Real.pi := by
  obtain ⟨t, ht, -⟩ := theta_spec c
  obtain ⟨p, hp, hp0, hp1, -⟩ := phi_spec c
  exact ⟨_, cartesianToPolarPoint_eq c t p ht hp, hp0, hp1⟩

/-! ## No division by zero -/

/-- C7: for every input, the denominator of each division is non-zero in the
leaf that evaluates it (`z` in the `z > 0` leaf of `theta`, `sqrt(x²+y²)` in
the `z < 0` leaf, `x` or `|x|` in the four quadrant leaves of `phi`), and
`cartesianToPolarPoint` returns a result: the division-by-zero outcome is
never produced. -/
theorem no_division_by_zero (c : Vec3 ℝ) :
    ((cartesianToPolarTheta realGlm c).1 = .upper → c.z ≠ 0) ∧
    ((cartesianToPolarTheta realGlm c).1 = .lower
      → Real.sqrt (c.x * c.x + c.y * c.y) ≠ 0) ∧
    ((cartesianToPolarPhi realGlm c).1 = .quadrant1 → c.x ≠ 0) ∧
    ((cartesianToPolarPhi realGlm c).1 = .quadrant2 → |c.x| ≠ 0) ∧
    ((cartesianToPolarPhi realGlm c).1 = .quadrant3 → c.x ≠ 0) ∧
    ((cartesianToPolarPhi realGlm c).1 = .quadrant4 → c.x ≠ 0) ∧
    (cartesianToPolarTheta realGlm c).2 ≠ none ∧
    (cartesianToPolarPhi realGlm c).2 ≠ none ∧
    cartesianToPolarPoint realGlm c ≠ none := by
  obtain ⟨t, ht, -⟩ := theta_spec c
  obtain ⟨p, hp, -⟩ := phi_spec c
  refine ⟨?_, ?_, ?_, ?_, ?_, ?_, by rw [ht]; simp, by rw [hp]; simp,
    by rw [cartesianToPolarPoint_eq c t p ht hp]; simp⟩
  · unfold cartesianToPolarTheta
    split_ifs with h1 h2 h3 h4 h5 h6 <;> intro h <;> first | exact ne_of_gt h5 | cases h
  · unfold cartesianToPolarTheta
    split_ifs with h1 h2 h3 h4 h5 h6 <;> intro h <;>
      first | exact (sqrt_xy_pos c h2).ne' | cases h
  all_goals
    unfold cartesianToPolarPhi
    split_ifs with h1 h2 h3 h4 h5 h6 h7 h8 h9 h10 <;> intro h <;>
      first | exact h1 | exact abs_ne_zero.mpr h1 | cases h

/-! ## The radius -/

/-- C8: for every input the `r` component returned by
`cartesianToPolarPoint` is non-negative. -/
theorem radius_nonneg (c : Vec3 ℝ) :
    ∃ q, cartesianToPolarPoint realGlm c = some q ∧ 0 ≤ q.x := by
  obtain ⟨t, ht, -⟩ := theta_spec c
  obtain ⟨p, hp, -⟩ := phi_spec c
  exact ⟨_, cartesianToPolarPoint_eq c t p ht hp, Real.sqrt_nonneg _⟩

/-! ## Points on the axes -/

/-- C9: on the z-axis, `cartesianToPolarPoint (0, 0, z) = (z, 0, 0)` for
every `z > EPS`, and `cartesianToPolarPoint (0, 0, z) = (-z, π, 0)` for every
`z < -EPS`. -/
theorem pole_case (z : ℝ) :
    (CLAMP_TO_ZERO < z → cartesianToPolarPoint realGlm ⟨0, 0, z⟩ = some ⟨z, 0, 0⟩) ∧
    (z < -CLAMP_TO_ZERO
      → cartesianToPolarPoint realGlm ⟨0, 0, z⟩ = some ⟨-z, Real.pi, 0⟩) := by
  have h0 : |(0 : ℝ)| ≤ CLAMP_TO_ZERO := by rw [abs_zero]; exact clamp_pos.le
  have hp : (cartesianToPolarPhi realGlm ⟨0, 0, z⟩).2 = some 0 := by
    rw [phi_xZeroElse _ rfl rfl]
  constructor
  · intro hz
    have ht : (cartesianToPolarTheta realGlm ⟨0, 0, z⟩).2 = some 0 := by
      rw [theta_axisPos _ hz h0 h0]
    have hr : Real.sqrt ((0 : ℝ) * 0 + 0 * 0 + z * z) = z := by
      rw [mul_zero, add_zero, zero_add, Real.sqrt_mul_self (lt_trans clamp_pos hz).le]
    rw [cartesianToPolarPoint_eq _ _ _ ht hp]
    simp only [hr]
  · intro hz
    have ht : (cartesianToPolarTheta realGlm ⟨0, 0, z⟩).2 = some Real.pi := by
      rw [theta_axisNeg _ hz h0 h0]
    have hneg : 0 ≤ -z := by linarith [clamp_pos]
    have hr : Real.sqrt ((0 : ℝ) * 0 + 0 * 0 + z * z) = -z := by
      rw [mul_zero, add_zero, zero_add, ← neg_mul_neg, Real.sqrt_mul_self hneg]
    rw [cartesianToPolarPoint_eq _ _ _ ht hp]
    simp only [hr]

/-- C9, at `z = 5` and `z = -5`: `cartesianToPolarPoint (0, 0, 5) = (5, 0, 0)`
and `cartesianToPolarPoint (0, 0, -5) = (5, π, 0)`. -/
theorem pole_case_witness :
    cartesianToPolarPoint realGlm ⟨0, 0, 5⟩ = some ⟨5, 0, 0⟩ ∧
    cartesianToPolarPoint realGlm ⟨0, 0, -5⟩ = some ⟨5, Real.pi, 0⟩ := by
  constructor
  · exact (pole_case 5).1 (by rw [clamp_eq]; norm_num)
  · have h := (pole_case (-5)).2 (by rw [clamp_eq]; norm_num)
    rw [neg_neg] at h
    exact h

/-- C10: on the positive x- and y-axes, for every `a > 0`,
`cartesianToPolarPoint (a, 0, 0) = (a, π/2, 0)` and
`cartesianToPolarPoint (0, a, 0) = (a, π/2, π/2)`. -/
theorem axis_case (a : ℝ) (ha : 0 < a) :
    cartesianToPolarPoint realGlm ⟨a, 0, 0⟩ = some ⟨a, Real.pi / 2, 0⟩ ∧
    cartesianToPolarPoint realGlm ⟨0, a, 0⟩ = some ⟨a, Real.pi / 2, Real.pi / 2⟩ := by
  have h0 : |(0 : ℝ)| ≤ CLAMP_TO_ZERO := by rw [abs_zero]; exact clamp_pos.le
  constructor
  · have ht : (cartesianToPolarTheta realGlm ⟨a, 0, 0⟩).2 = some (Real.pi / 2) := by
      rw [theta_clampZ _ h0]
    have hp : (cartesianToPolarPhi realGlm ⟨a, 0, 0⟩).2 = some 0 := by
      rw [phi_yZeroXPos _ ha rfl]
    have hr : Real.sqrt (a * a + (0 : ℝ) * 0 + 0 * 0) = a := by
      rw [mul_zero, add_zero, add_zero, Real.sqrt_mul_self ha.le]
    rw [cartesianToPolarPoint_eq _ _ _ ht hp]
    simp only [hr]
  · have ht : (cartesianToPolarTheta realGlm ⟨0, a, 0⟩).2 = some (Real.pi / 2) := by
      rw [theta_clampZ _ h0]
    have hp : (cartesianToPolarPhi realGlm ⟨0, a, 0⟩).2 = some (Real.pi / 2) := by
      rw [phi_xZeroYPos _ rfl ha]
    have hr : Real.sqrt ((0 : ℝ) * 0 + a * a + 0 * 0) = a := by
      rw [mul_zero, add_zero, zero_add, Real.sqrt_mul_self ha.le]
    rw [cartesianToPolarPoint_eq _ _ _ ht hp]
    simp only [hr]

/-- C10, at `a = 1`: `cartesianToPolarPoint (1, 0, 0) = (1, π/2, 0)` and
`cartesianToPolarPoint (0, 1, 0) = (1, π/2, π/2)`. -/
theorem axis_case_witness :
    cartesianToPolarPoint realGlm ⟨1, 0, 0⟩ = some ⟨1, Real.pi / 2, 0⟩ ∧
    cartesianToPolarPoint realGlm ⟨0, 1, 0⟩ = some ⟨1, Real.pi / 2, Real.pi / 2⟩ :=
  axis_case 1 one_pos

/-! ## The origin and the third quadrant -/

/-- C11: at the origin `cartesianToPolarPoint (0, 0, 0) = (0, π/2, 0)`; `theta`
is set by the `|z| ≤ EPS` leaf (line 18), which comes before the z-axis test,
and `phi` by the inner `else` of the `x == 0` test (line 49); neither leaf
divides by a run-time value. -/
theorem origin_case :
    cartesianToPolarPoint realGlm ⟨0, 0, 0⟩ = some ⟨0, Real.pi / 2, 0⟩ ∧
    cartesianToPolarTheta realGlm ⟨0, 0, 0⟩ = (.clampZ, some (Real.pi / 2)) ∧
    cartesianToPolarPhi realGlm ⟨0, 0, 0⟩ = (.xZeroElse, some 0) := by
  have h0 : |(0 : ℝ)| ≤ CLAMP_TO_ZERO := by rw [abs_zero]; exact clamp_pos.le
  have ht := theta_clampZ ⟨0, 0, 0⟩ h0
  have hp := phi_xZeroElse ⟨0, 0, 0⟩ rfl rfl
  refine ⟨?_, ht, hp⟩
  have hr : Real.sqrt ((0 : ℝ) * 0 + 0 * 0 + 0 * 0) = 0 := by
    rw [mul_zero, add_zero, add_zero, Real.sqrt_zero]
  rw [cartesianToPolarPoint_eq _ (Real.pi / 2) 0 (by rw [ht]) (by rw [hp])]
  simp only [hr]

/-- C12: for every input with `x < 0` and `y < 0` the `phi` component returned
by `cartesianToPolarPoint` lies strictly between `π` and `3π/2`, and
`cartesianToPolarPoint (-1, -1, 0)` has `phi = 5π/4`. -/
theorem quadrant_case :
    (∀ c : Vec3 ℝ, c.x < 0 → c.y < 0 →
      ∃ q, cartesianToPolarPoint realGlm c = some q ∧
        Real.pi < q.z ∧ q.z < 3 * Real.pi / 2) ∧
    ∃ q, cartesianToPolarPoint realGlm ⟨-1, -1, 0⟩ = some q ∧ q.z = 5 * Real.pi / 4 := by
  constructor
  · intro c hx hy
    obtain ⟨t, ht, -⟩ := theta_spec c
    have hp : (cartesianToPolarPhi realGlm c).2
        = some (Real.pi + Real.arctan (c.y / c.x)) := by
      rw [phi_quadrant3 c hx hy]
    have h0 : 0 < Real.arctan (c.y / c.x) := by
      rw [← Real.arctan_zero]
      exact Real.arctan_strictMono (div_pos_of_neg_of_neg hy hx)
    have h1 := Real.arctan_lt_pi_div_two (c.y / c.x)
    refine ⟨_, cartesianToPolarPoint_eq c t _ ht hp, ?_, ?_⟩
    · show Real.pi < Real.pi + Real.arctan (c.y / c.x)
      linarith
    · show Real.pi + Real.arctan (c.y / c.x) < 3 * Real.pi / 2
      linarith
  · obtain ⟨t, ht, -⟩ := theta_spec ⟨-1, -1, 0⟩
    have hp : (cartesianToPolarPhi realGlm ⟨-1, -1, 0⟩).2
        = some (Real.pi + Real.arctan ((-1 : ℝ) / (-1))) := by
      rw [phi_quadrant3 ⟨-1, -1, 0⟩ (show (-1 : ℝ) < 0 by norm_num)
        (show (-1 : ℝ) < 0 by norm_num)]
    refine ⟨_, cartesianToPolarPoint_eq _ t _ ht hp, ?_⟩
    show Real.pi + Real.arctan ((-1 : ℝ) / (-1)) = 5 * Real.pi / 4
    rw [neg_div_neg_eq, div_one, Real.arctan_one]
    ring

/-- C12, at the point `(-2, -3, 7)`. -/
theorem quadrant_case_witness :
    ∃ q, cartesianToPolarPoint realGlm ⟨-2, -3, 7⟩ = some q ∧
      Real.pi < q.z ∧ q.z < 3 * Real.pi / 2 :=
  quadrant_case.1 ⟨-2, -3, 7⟩ (show (-2 : ℝ) < 0 by norm_num) (show (-3 : ℝ) < 0 by norm_num)

/-! ## The polar angle outside the clamp regions -/

/-- C13: for every input outside the two clamp regions (`|z| > EPS` and not
both `|x| ≤ EPS` and `|y| ≤ EPS`) the `theta` returned by
`cartesianToPolarPoint` satisfies `cos theta = z / r` and
`sin theta = sqrt(x²+y²) / r`, with `r = sqrt(x²+y²+z²)`. -/
theorem theta_is_polar_angle (c : Vec3 ℝ) (hz : CLAMP_TO_ZERO < |c.z|)
    (hxy : ¬ (|c.x| ≤ CLAMP_TO_ZERO ∧ |c.y| ≤ CLAMP_TO_ZERO)) :
    ∃ q, cartesianToPolarPoint realGlm c = some q ∧
      Real.cos q.y = c.z / Real.sqrt (c.x * c.x + c.y * c.y + c.z * c.z) ∧
      Real.sin q.y = Real.sqrt (c.x * c.x + c.y * c.y)
        / Real.sqrt (c.x * c.x + c.y * c.y + c.z * c.z) := by
  obtain ⟨t, ht, -, -, htrig⟩ := theta_spec c
  obtain ⟨p, hp, -⟩ := phi_spec c
  obtain ⟨hcos, hsin⟩ := htrig hz hxy
  have hR : Real.sqrt (c.x * c.x + c.y * c.y + c.z * c.z) ≠ 0 := by
    apply ne_of_gt
    apply Real.sqrt_pos.mpr
    have hz0 : c.z ≠ 0 := by
      intro h
      rw [h, abs_zero] at hz
      exact absurd hz (not_lt.mpr clamp_pos.le)
    have := mul_self_pos.mpr hz0
    nlinarith [mul_self_nonneg c.x, mul_self_nonneg c.y]
  refine ⟨_, cartesianToPolarPoint_eq c t p ht hp, ?_, ?_⟩
  · show Real.cos t = c.z / Real.sqrt (c.x * c.x + c.y * c.y + c.z * c.z)
    rw [eq_div_iff hR, mul_comm]
    exact hcos
  · show Real.sin t = Real.sqrt (c.x * c.x + c.y * c.y)
      / Real.sqrt (c.x * c.x + c.y * c.y + c.z * c.z)
    rw [eq_div_iff hR, mul_comm]
    exact hsin

/-- C13, at the point `(3, 4, -12)`, below the equatorial plane. -/
theorem theta_is_polar_angle_witness :
    ∃ q, cartesianToPolarPoint realGlm ⟨3, 4, -12⟩ = some q ∧
      Real.cos q.y = (-12) / Real.sqrt ((3 : ℝ) * 3 + 4 * 4 + (-12) * (-12)) ∧
      Real.sin q.y = Real.sqrt ((3 : ℝ) * 3 + 4 * 4)
        / Real.sqrt ((3 : ℝ) * 3 + 4 * 4 + (-12) * (-12)) :=
  theta_is_polar_angle ⟨3, 4, -12⟩
    (by show CLAMP_TO_ZERO < |(-12 : ℝ)|; rw [clamp_eq, abs_of_neg (by norm_num)]; norm_num)
    (fun h => absurd h.1 (by
      show ¬ |(3 : ℝ)| ≤ CLAMP_TO_ZERO
      rw [clamp_eq, abs_of_pos (by norm_num)]; norm_num))

/-! ## Exact round trips outside the clamp regions -/

/-- C14: for every Cartesian point `p` with `|z| > EPS` and (`|x| > EPS` or
`|y| > EPS`), `polarToCartesianPoint (cartesianToPolarPoint p) = p` exactly,
on all three components. -/
theorem roundtrip_exact_off_clamp (c : Vec3 ℝ) (hz : CLAMP_TO_ZERO < |c.z|)
    (hxy : CLAMP_TO_ZERO < |c.x| ∨ CLAMP_TO_ZERO < |c.y|) :
    ∃ q, cartesianToPolarPoint realGlm c = some q ∧ polarToCartesianPoint realGlm q = c := by
  apply roundtrip_exact c hz
  rintro ⟨h1, h2⟩
  rcases hxy with h | h
  · exact absurd h1 (not_le.mpr h)
  · exact absurd h2 (not_le.mpr h)

/-- C14, at the point `(-2, 1, -5)`. -/
theorem roundtrip_exact_off_clamp_witness :
    ∃ q, cartesianToPolarPoint realGlm ⟨-2, 1, -5⟩ = some q ∧
      polarToCartesianPoint realGlm q = ⟨-2, 1, -5⟩ :=
  roundtrip_exact_off_clamp ⟨-2, 1, -5⟩
    (by show CLAMP_TO_ZERO < |(-5 : ℝ)|; rw [clamp_eq, abs_of_neg (by norm_num)]; norm_num)
    (Or.inr (by show CLAMP_TO_ZERO < |(1 : ℝ)|; rw [clamp_eq, abs_of_pos (by norm_num)]; norm_num))

/-! ## Round-trip error inside the clamp regions -/

theorem rho_le_radius (x y z : ℝ) :
    Real.sqrt (x * x + y * y) ≤ Real.sqrt (x * x + y * y + z * z) :=
  Real.sqrt_le_sqrt (le_add_of_nonneg_right (mul_self_nonneg z))

theorem abs_z_le_radius (x y z : ℝ) : |z| ≤ Real.sqrt (x * x + y * y + z * z) := by
  apply Real.abs_le_sqrt
  nlinarith [mul_self_nonneg x, mul_self_nonneg y]

/-- Dropping `z` shortens the radius by at most `|z|`. -/
theorem radius_le_rho_add (x y z : ℝ) :
    Real.sqrt (x * x + y * y + z * z) ≤ Real.sqrt (x * x + y * y) + |z| := by
  have h0 := Real.sqrt_nonneg (x * x + y * y)
  have h1 : Real.sqrt (x * x + y * y) ^ 2 = x * x + y * y :=
    Real.sq_sqrt (add_nonneg (mul_self_nonneg x) (mul_self_nonneg y))
  have h2 : |z| ^ 2 = z * z := by rw [sq_abs]; ring
  rw [Real.sqrt_le_iff]
  refine ⟨add_nonneg h0 (abs_nonneg z), ?_⟩
  nlinarith [mul_nonneg h0 (abs_nonneg z)]

/-- Next to the z-axis, beyond the clamp in `z`, the radius exceeds `|z|` by at
most the clamp threshold. -/
theorem radius_le_abs_z_add (x y z : ℝ) (hx : |x| ≤ CLAMP_TO_ZERO) (hy : |y| ≤ CLAMP_TO_ZERO)
    (hz : CLAMP_TO_ZERO < |z|) :
    Real.sqrt (x * x + y * y + z * z) ≤ |z| + CLAMP_TO_ZERO := by
  have hE := clamp_pos
  have hx2 : x * x ≤ CLAMP_TO_ZERO * CLAMP_TO_ZERO := by
    rw [← abs_mul_abs_self x]
    exact mul_self_le_mul_self (abs_nonneg x) hx
  have hy2 : y * y ≤ CLAMP_TO_ZERO * CLAMP_TO_ZERO := by
    rw [← abs_mul_abs_self y]
    exact mul_self_le_mul_self (abs_nonneg y) hy
  have hz2 : |z| ^ 2 = z * z := by rw [sq_abs]; ring
  rw [Real.sqrt_le_iff]
  refine ⟨add_nonneg (abs_nonneg z) hE.le, ?_⟩
  nlinarith [mul_pos hE hE, mul_le_mul_of_nonneg_right hz.le hE.le]

/-- C15: for every Cartesian point `p`, also inside the clamp regions and at
the origin, `polarToCartesianPoint (cartesianToPolarPoint p)` is defined and
each of its components differs from the component of `p` by at most
`EPS = 0.001`. -/
theorem roundtrip_error_le_clamp (c : Vec3 ℝ) :
    ∃ q, cartesianToPolarPoint realGlm c = some q ∧
      |(polarToCartesianPoint realGlm q).x - c.x| ≤ CLAMP_TO_ZERO ∧
      |(polarToCartesianPoint realGlm q).y - c.y| ≤ CLAMP_TO_ZERO ∧
      |(polarToCartesianPoint realGlm q).z - c.z| ≤ CLAMP_TO_ZERO := by
  have hE := clamp_pos
  obtain ⟨p, hp, -, -, hpx, hpy⟩ := phi_spec c
  by_cases hz : |c.z| ≤ CLAMP_TO_ZERO
  · -- `theta` clamped to `π/2`: the point is projected onto the sphere's equator
    have ht : (cartesianToPolarTheta realGlm c).2 = some (Real.pi / 2) := by
      rw [theta_clampZ c hz]
    have h1 := rho_le_radius c.x c.y c.z
    have h2 := radius_le_rho_add c.x c.y c.z
    have hd : |Real.sqrt (c.x * c.x + c.y * c.y + c.z * c.z)
        - Real.sqrt (c.x * c.x + c.y * c.y)| ≤ CLAMP_TO_ZERO := by
      rw [abs_of_nonneg (by linarith)]
      linarith
    refine ⟨_, cartesianToPolarPoint_eq c _ p ht hp, ?_, ?_, ?_⟩
    · simp only [polarToCartesianPoint, realGlm_sin, realGlm_cos, Real.sin_pi_div_two, mul_one]
      have e : Real.sqrt (c.x * c.x + c.y * c.y + c.z * c.z) * Real.cos p - c.x
          = (Real.sqrt (c.x * c.x + c.y * c.y + c.z * c.z)
              - Real.sqrt (c.x * c.x + c.y * c.y)) * Real.cos p := by
        rw [sub_mul, hpx]
      rw [e, abs_mul]
      calc _ ≤ |Real.sqrt (c.x * c.x + c.y * c.y + c.z * c.z)
              - Real.sqrt (c.x * c.x + c.y * c.y)| * 1 :=
            mul_le_mul_of_nonneg_left (Real.abs_cos_le_one p) (abs_nonneg _)
        _ ≤ CLAMP_TO_ZERO := by rw [mul_one]; exact hd
    · simp only [polarToCartesianPoint, realGlm_sin, Real.sin_pi_div_two, mul_one]
      have e : Real.sqrt (c.x * c.x + c.y * c.y + c.z * c.z) * Real.sin p - c.y
          = (Real.sqrt (c.x * c.x + c.y * c.y + c.z * c.z)
              - Real.sqrt (c.x * c.x + c.y * c.y)) * Real.sin p := by
        rw [sub_mul, hpy]
      rw [e, abs_mul]
      calc _ ≤ |Real.sqrt (c.x * c.x + c.y * c.y + c.z * c.z)
              - Real.sqrt (c.x * c.x + c.y * c.y)| * 1 :=
            mul_le_mul_of_nonneg_left (Real.abs_sin_le_one p) (abs_nonneg _)
        _ ≤ CLAMP_TO_ZERO := by rw [mul_one]; exact hd
    · simp only [polarToCartesianPoint, realGlm_cos, Real.cos_pi_div_two, mul_zero, zero_sub,
        abs_neg]
      exact hz
  · have hz' : CLAMP_TO_ZERO < |c.z| := not_le.mp hz
    by_cases hxy : |c.x| ≤ CLAMP_TO_ZERO ∧ |c.y| ≤ CLAMP_TO_ZERO
    · -- `theta` clamped to `0` or `π`: the point is moved onto the z-axis
      have h1 := abs_z_le_radius c.x c.y c.z
      have h2 := radius_le_abs_z_add c.x c.y c.z hxy.1 hxy.2 hz'
      rcases lt_abs.mp hz' with hpos | hneg
      · have ht : (cartesianToPolarTheta realGlm c).2 = some 0 := by
          rw [theta_axisPos c hpos hxy.1 hxy.2]
        have hzabs : |c.z| = c.z := abs_of_pos (lt_trans hE hpos)
        rw [hzabs] at h1 h2
        refine ⟨_, cartesianToPolarPoint_eq c _ p ht hp, ?_, ?_, ?_⟩
        · simp only [polarToCartesianPoint, realGlm_sin, Real.sin_zero, mul_zero, zero_mul,
            zero_sub, abs_neg]
          exact hxy.1
        · simp only [polarToCartesianPoint, realGlm_sin, Real.sin_zero, mul_zero, zero_mul,
            zero_sub, abs_neg]
          exact hxy.2
        · simp only [polarToCartesianPoint, realGlm_cos, Real.cos_zero, mul_one]
          rw [abs_of_nonneg (by linarith)]
          linarith
      · have hneg' : c.z < -CLAMP_TO_ZERO := by linarith
        have ht : (cartesianToPolarTheta realGlm c).2 = some Real.pi := by
          rw [theta_axisNeg c hneg' hxy.1 hxy.2]
        have hzabs : |c.z| = -c.z := abs_of_neg (by linarith)
        rw [hzabs] at h1 h2
        refine ⟨_, cartesianToPolarPoint_eq c _ p ht hp, ?_, ?_, ?_⟩
        · simp only [polarToCartesianPoint, realGlm_sin, Real.sin_pi, mul_zero, zero_mul,
            zero_sub, abs_neg]
          exact hxy.1
        · simp only [polarToCartesianPoint, realGlm_sin, Real.sin_pi, mul_zero, zero_mul,
            zero_sub, abs_neg]
          exact hxy.2
        · simp only [polarToCartesianPoint, realGlm_cos, Real.cos_pi, mul_neg, mul_one]
          rw [abs_of_nonpos (by linarith)]
          linarith
    · -- outside the clamp regions the round trip is exact
      obtain ⟨q, hq, hback⟩ := roundtrip_exact c hz' hxy
      refine ⟨q, hq, ?_⟩
      rw [hback]
      simp only [sub_self, abs_zero]
      exact ⟨hE.le, hE.le, hE.le⟩

/-- C16: for every polar point `(r, theta, phi)` with `r > 0`, `theta ∈ (0, π)`,
`phi ∈ [0, 2π)` whose image `(x, y, z)` under `polarToCartesianPoint` has
`|z| > EPS` and (`|x| > EPS` or `|y| > EPS`),
`cartesianToPolarPoint (x, y, z) = (r, theta, phi)` exactly. -/
theorem inverse_roundtrip_exact_off_clamp (pol : Vec3 ℝ) (hr : 0 < pol.x)
    (ht0 : 0 < pol.y) (ht1 : pol.y < Real.pi) (hp0 : 0 ≤ pol.z) (hp1 : pol.z < 2 * Real.pi)
    (hz : CLAMP_TO_ZERO < |(polarToCartesianPoint realGlm pol).z|)
    (hxy : CLAMP_TO_ZERO < |(polarToCartesianPoint realGlm pol).x|
      ∨ CLAMP_TO_ZERO < |(polarToCartesianPoint realGlm pol).y|) :
    cartesianToPolarPoint realGlm (polarToCartesianPoint realGlm pol) = some pol := by
  apply inverse_roundtrip_exact pol hr.le ht0.le ht1.le hp0 hp1 hz
  rintro ⟨h1, h2⟩
  rcases hxy with h | h
  · exact absurd h1 (not_le.mpr h)
  · exact absurd h2 (not_le.mpr h)

/-- C16, at the polar point `(2, π/4, π)`, whose image is `(-√2, 0, √2)`. -/
theorem inverse_roundtrip_exact_off_clamp_witness :
    cartesianToPolarPoint realGlm (polarToCartesianPoint realGlm ⟨2, Real.pi / 4, Real.pi⟩)
      = some ⟨2, Real.pi / 4, Real.pi⟩ := by
  have hpi := Real.pi_pos
  have h2 : (1 / 1000 : ℝ) < Real.sqrt 2 := by
    rw [Real.lt_sqrt (by norm_num)]
    norm_num
  have hz : CLAMP_TO_ZERO
      < |(polarToCartesianPoint realGlm ⟨2, Real.pi / 4, Real.pi⟩).z| := by
    simp only [polarToCartesianPoint, realGlm_cos, Real.cos_pi_div_four]
    rw [clamp_eq, abs_of_pos (by positivity)]
    linarith
  have hx : CLAMP_TO_ZERO
      < |(polarToCartesianPoint realGlm ⟨2, Real.pi / 4, Real.pi⟩).x| := by
    simp only [polarToCartesianPoint, realGlm_cos, realGlm_sin, Real.sin_pi_div_four,
      Real.cos_pi, mul_neg, mul_one, abs_neg]
    rw [clamp_eq, abs_of_pos (by positivity)]
    linarith
  exact inverse_roundtrip_exact_off_clamp ⟨2, Real.pi / 4, Real.pi⟩ (by norm_num)
    (by show 0 < Real.pi / 4; positivity) (by show Real.pi / 4 < Real.pi; linarith)
    (by show 0 ≤ Real.pi; exact hpi.le) (by show Real.pi < 2 * Real.pi; linarith) hz
    (Or.inl hx)

/-! ## Radius preservation -/

theorem polarToCartesianPoint_norm_sq (pol : Vec3 ℝ) :
    (polarToCartesianPoint realGlm pol).x * (polarToCartesianPoint realGlm pol).x
      + (polarToCartesianPoint realGlm pol).y * (polarToCartesianPoint realGlm pol).y
      + (polarToCartesianPoint realGlm pol).z * (polarToCartesianPoint realGlm pol).z
      = pol.x * pol.x := by
  simp only [polarToCartesianPoint, realGlm_sin, realGlm_cos]
  have h1 := Real.sin_sq_add_cos_sq pol.y
  have h2 := Real.sin_sq_add_cos_sq pol.z
  have h3 : Real.cos pol.y ^ 2 = 1 - Real.sin pol.y ^ 2 := by linarith
  have h4 : Real.cos pol.z ^ 2 = 1 - Real.sin pol.z ^ 2 := by linarith
  ring_nf
  rw [h3, h4]
  ring

/-- C17: for all real `(r, theta, phi)` the point
`(x, y, z) = polarToCartesianPoint (r, theta, phi)` satisfies
`x² + y² + z² = r²`; and for every Cartesian `p`, converting
`cartesianToPolarPoint p` back to Cartesian and again to polar gives the same
`r` component as `cartesianToPolarPoint p`, clamped angles or not. -/
theorem radius_preserved :
    (∀ pol : Vec3 ℝ,
      (polarToCartesianPoint realGlm pol).x ^ 2 + (polarToCartesianPoint realGlm pol).y ^ 2
        + (polarToCartesianPoint realGlm pol).z ^ 2 = pol.x ^ 2) ∧
    (∀ c : Vec3 ℝ, ∃ q q2, cartesianToPolarPoint realGlm c = some q ∧
      cartesianToPolarPoint realGlm (polarToCartesianPoint realGlm q) = some q2 ∧
      q2.x = q.x) := by
  constructor
  · intro pol
    have h := polarToCartesianPoint_norm_sq pol
    rw [sq, sq, sq, sq]
    exact h
  · intro c
    obtain ⟨t, ht, -⟩ := theta_spec c
    obtain ⟨p, hp, -⟩ := phi_spec c
    obtain ⟨t2, ht2, -⟩ := theta_spec (polarToCartesianPoint realGlm
      ⟨Real.sqrt (c.x * c.x + c.y * c.y + c.z * c.z), t, p⟩)
    obtain ⟨p2, hp2, -⟩ := phi_spec (polarToCartesianPoint realGlm
      ⟨Real.sqrt (c.x * c.x + c.y * c.y + c.z * c.z), t, p⟩)
    refine ⟨_, _, cartesianToPolarPoint_eq c t p ht hp,
      cartesianToPolarPoint_eq _ t2 p2 ht2 hp2, ?_⟩
    show Real.sqrt _ = Real.sqrt (c.x * c.x + c.y * c.y + c.z * c.z)
    rw [polarToCartesianPoint_norm_sq, Real.sqrt_mul_self (Real.sqrt_nonneg _)]

/-! ## The fall-through leaves -/

/-- C18: for every real input none of the four fall-through leaves of
`cartesianToPolarPoint` is taken: not the `else theta = 0` inside the z-axis
test (lines 27-29), not the final `else theta = 0` (lines 37-39), not the
`else phi = 0` inside the `y == 0` test (lines 59-61), not the final
`else phi = 0` (lines 75-77). -/
theorem fall_through_unreachable (c : Vec3 ℝ) :
    (cartesianToPolarTheta realGlm c).1 ≠ .axisElse ∧
    (cartesianToPolarTheta realGlm c).1 ≠ .thetaElse ∧
    (cartesianToPolarPhi realGlm c).1 ≠ .yZeroElse ∧
    (cartesianToPolarPhi realGlm c).1 ≠ .phiElse := by
  have hE := clamp_pos
  refine ⟨?_, ?_, ?_, ?_⟩
  · unfold cartesianToPolarTheta
    split_ifs with h1 h2 h3 h4 h5 h6 <;> intro h <;> first
      | (have hz : c.z = 0 := le_antisymm (not_lt.mp h3) (not_lt.mp h4)
         rw [hz, abs_zero] at h1
         exact h1 hE.le)
      | cases h
  · unfold cartesianToPolarTheta
    split_ifs with h1 h2 h3 h4 h5 h6 <;> intro h <;> first
      | (have hz : c.z = 0 := le_antisymm (not_lt.mp h5) (not_lt.mp h6)
         rw [hz, abs_zero] at h1
         exact h1 hE.le)
      | cases h
  · unfold cartesianToPolarPhi
    split_ifs with h1 h2 h3 h4 h5 h6 h7 h8 h9 h10 <;> intro h <;> first
      | exact h1 (le_antisymm (not_lt.mp h5) (not_lt.mp h6))
      | cases h
  · unfold cartesianToPolarPhi
    split_ifs with h1 h2 h3 h4 h5 h6 h7 h8 h9 h10 <;> intro h <;> first
      | (rcases lt_or_gt_of_ne h1 with hx | hx <;> rcases lt_or_gt_of_ne h4 with hy | hy
         · exact h9 ⟨hy, hx⟩
         · exact h8 ⟨hy, hx⟩
         · exact h10 ⟨hy, hx⟩
         · exact h7 ⟨hy, hx⟩)
      | cases h

end Polar
